import Mathlib

/-!
Verification of the `endpoint` package (endpoint.go) of external-dns.

Go strings are modelled as lists of characters (`GoString`).  Go compares
strings byte-wise; UTF-8 encoding preserves code-point order, so the
character-wise lexicographic order on `List Char` (Mathlib's `List.Lex`
order) coincides with Go's byte-wise string order.  Go `len` on strings
counts bytes, which is modelled explicitly by `utf8Len` where it matters.
-/

/-- A Go string, modelled as its sequence of characters. -/
abbrev GoString := List Char

/-- Helper turning a Lean string literal into the Go string model. -/
def gs (s : String) : GoString := s.data

/-- Go `len(s)` for a string: the number of bytes of its UTF-8 encoding. -/
def utf8Len (s : GoString) : Nat := (s.map Char.utf8Size).sum

namespace netip

/-- Model of Go `netip.Addr` (only valid addresses are represented; a failed
parse is `none` at use sites, mirroring the zero `netip.Addr{}` being invalid).
`val` is the internal 128-bit value: for IPv4 addresses `AddrFrom4` stores the
IPv4-mapped value `0xffff00000000 + v4`, exactly as netip's internal uint128
(only its order matters, and cross-family comparisons are decided by `bitLenN`
first, as in `netip.Addr.Compare`). -/
structure Addr where
  is6 : Bool
  val : Nat
  zone : GoString
deriving DecidableEq

/-- Loop of Go `netip.parseIPv4Fields` (with `off = 0`, `end = len(s)`):
`fields` are the completed dot-separated octets, `pval` the value of the
current octet, `digLen` its number of digits so far.  The Go conditions
`i == 0 || s[i-1] == '.'` are equivalent to `digLen = 0`, and
`i == len(s)-1` to the remainder after the dot being empty. -/
def parseIPv4Loop : List Char → List Nat → Nat → Nat → Option (Nat × Nat × Nat × Nat)
  | [], fields, pval, _ =>
    match fields with
    | [a, b, c] => some (a, b, c, pval)
    | _ => none
  | ch :: rest, fields, pval, digLen =>
    if '0' ≤ ch ∧ ch ≤ '9' then
      if digLen = 1 ∧ pval = 0 then none
      else
        let pval2 := pval * 10 + (ch.toNat - '0'.toNat)
        if 255 < pval2 then none
        else parseIPv4Loop rest fields pval2 (digLen + 1)
    else if ch = '.' then
      if digLen = 0 then none
      else if rest = [] then none
      else if fields.length = 3 then none
      else parseIPv4Loop rest (fields ++ [pval]) 0 0
    else none

/-- Go `netip.parseIPv4`: four dot-separated decimal octets, each without
leading zeros and at most 255. -/
def parseIPv4 (s : GoString) : Option (Nat × Nat × Nat × Nat) :=
  parseIPv4Loop s [] 0 0

/-- Go `netip.AddrFrom4`: the internal value is `0xffff00000000 | be32`. -/
def AddrFrom4 (a b c d : Nat) : Addr :=
  { is6 := false, val := 0xffff00000000 + (((a * 256 + b) * 256 + c) * 256 + d), zone := [] }

/-- Go `netip.AddrFrom16` followed by `WithZone`: sixteen big-endian bytes. -/
def AddrFrom16 (bytes : List Nat) (zone : GoString) : Addr :=
  { is6 := true, val := bytes.foldl (fun acc b => acc * 256 + b) 0, zone := zone }

/-- Value of one hexadecimal digit, as accepted by Go `netip.parseIPv6`. -/
def hexDigit (c : Char) : Option Nat :=
  if '0' ≤ c ∧ c ≤ '9' then some (c.toNat - '0'.toNat)
  else if 'a' ≤ c ∧ c ≤ 'f' then some (c.toNat - 'a'.toNat + 10)
  else if 'A' ≤ c ∧ c ≤ 'F' then some (c.toNat - 'A'.toNat + 10)
  else none

/-- The inner digit loop of Go `netip.parseIPv6`: consume hexadecimal digits,
failing on a fifth digit in one group (`off > 3` in the Go code); returns the
accumulated value, the number of digits, and the remaining characters. -/
def takeHexGroup : List Char → Nat → Nat → Option (Nat × Nat × List Char)
  | [], acc, off => some (acc, off, [])
  | c :: rest, acc, off =>
    match hexDigit c with
    | some v => if 3 < off then none else takeHexGroup rest (acc * 16 + v) (off + 1)
    | none => some (acc, off, c :: rest)

/-- Main loop of Go `netip.parseIPv6`.  `ip` holds the bytes parsed so far
(`ip.length` is Go's `i`), `ell` the position of a `::` if seen.  Returns the
unconsumed characters together with the final `ip` and `ell` when the loop
exits normally.  The first argument is fuel; every iteration consumes at
least one character of `s`, so `s.length + 1` is always sufficient. -/
def v6loop : Nat → List Char → List Nat → Option Nat → Option (List Char × List Nat × Option Nat)
  | 0, _, _, _ => none
  | fuel + 1, s, ip, ell =>
    if 16 ≤ ip.length then some (s, ip, ell)
    else
      match takeHexGroup s 0 0 with
      | none => none
      | some (acc, off, rest) =>
        if off = 0 then none
        else if rest.head? = some '.' then
          if (ell = none ∧ ip.length ≠ 12) ∨ 16 < ip.length + 4 then none
          else
            match parseIPv4 s with
            | none => none
            | some (a, b, c, d) => some ([], ip ++ [a, b, c, d], ell)
        else
          let ip2 := ip ++ [acc / 256, acc % 256]
          match rest with
          | [] => some ([], ip2, ell)
          | ':' :: [] => none
          | ':' :: ':' :: rest3 =>
            if ell.isSome then none
            else if rest3 = [] then some ([], ip2, some ip2.length)
            else v6loop fuel rest3 ip2 (some ip2.length)
          | ':' :: rest2 => v6loop fuel rest2 ip2 ell
          | _ => none

/-- Epilogue of Go `netip.parseIPv6`: the whole string must be consumed; a
short address needs a `::`, which expands to `16 - ip.length` zero bytes at
its recorded position; a full 16-byte address must not contain a `::`. -/
def finishIPv6 (r : Option (List Char × List Nat × Option Nat)) (zone : GoString) : Option Addr :=
  match r with
  | none => none
  | some (srem, ip, ell) =>
    if srem ≠ [] then none
    else if ip.length < 16 then
      match ell with
      | none => none
      | some e =>
        some (AddrFrom16 (ip.take e ++ List.replicate (16 - ip.length) 0 ++ ip.drop e) zone)
    else if ell.isSome then none
    else some (AddrFrom16 ip zone)

/-- Go `netip.parseIPv6` after the zone has been split off: a leading `::`
is recorded before the main loop; `::` alone is the unspecified address. -/
def parseIPv6Main (s : GoString) (zone : GoString) : Option Addr :=
  match s with
  | ':' :: ':' :: rest =>
    if rest = [] then some { is6 := true, val := 0, zone := zone }
    else finishIPv6 (v6loop (rest.length + 1) rest [] (some 0)) zone
  | _ => finishIPv6 (v6loop (s.length + 1) s [] none) zone

/-- Go `netip.parseIPv6`: the zone is everything after the first `%` and must
be nonempty if the separator is present. -/
def parseIPv6 (inp : GoString) : Option Addr :=
  match inp.findIdx? (fun c => c = '%') with
  | some i =>
    let zone := inp.drop (i + 1)
    if zone = [] then none else parseIPv6Main (inp.take i) zone
  | none => parseIPv6Main inp []

/-- Go `netip.ParseAddr`: dispatch on the first `.`, `:` or `%` in the input.
`none` models a parse error (Go returns the invalid zero `Addr` plus an
error; the caller only uses `IsValid()`, so `Option` is a faithful model). -/
def ParseAddr (s : GoString) : Option Addr :=
  match s.find? (fun c => c = '.' ∨ c = ':' ∨ c = '%') with
  | some c =>
    if c = '.' then (parseIPv4 s).map (fun f => AddrFrom4 f.1 f.2.1 f.2.2.1 f.2.2.2)
    else if c = ':' then parseIPv6 s
    else none
  | none => none

/-- Go `netip.Addr.BitLen` for valid addresses: 32 for IPv4, 128 for IPv6. -/
def Addr.bitLenN (a : Addr) : Nat := if a.is6 then 128 else 32

/-- Go `netip.Addr.Less` (via `Addr.Compare`): first by bit length, then by
the 128-bit value, then (for two IPv6 addresses) by zone. -/
def Addr.Less (a b : Addr) : Bool :=
  if a.bitLenN < b.bitLenN then true
  else if b.bitLenN < a.bitLenN then false
  else if a.val < b.val then true
  else if b.val < a.val then false
  else if a.is6 && b.is6 then decide (a.zone < b.zone)
  else false

end netip

/-- Model of `endpoint.Targets`: a list of target strings. -/
abbrev Targets := List GoString

/-- The sort performed inside `Targets.Same` (`sort.Stable(t)`) and
`Targets.IsLess` (`sort.Sort(t)`), with `Less(i,j) = t[i] < t[j]`.  Both Go
sorts produce the unique nondecreasing permutation, because `<` on strings is
a strict total order (stability is irrelevant: equal elements are identical
strings); `List.insertionSort` with `≤` computes exactly that permutation. -/
def sortTargets (t : Targets) : Targets := List.insertionSort (fun a b => a ≤ b) t

/-- Go `strings.EqualFold`, restricted to its ASCII behaviour: equality after
mapping letters to lower case.  (Go folds full Unicode; `Char.toLower` folds
exactly the ASCII letters, which is the case the specification speaks about.) -/
def EqualFold (a b : GoString) : Bool := a.map Char.toLower == b.map Char.toLower

/-- The comparison loop of `Targets.Same`: pairwise `EqualFold` over the two
(sorted) lists; the lengths are already known to be equal when it runs. -/
def sameLoop : Targets → Targets → Bool
  | e :: t, oe :: o => EqualFold e oe && sameLoop t o
  | _, _ => true

/-- Model of `Targets.Same`: false on a length mismatch, otherwise sort both lists and
compare pairwise case-insensitively. -/
def Targets.Same (t o : Targets) : Bool :=
  if t.length ≠ o.length then false
  else sameLoop (sortTargets t) (sortTargets o)

/-- The switch in the loop body of `Targets.IsLess`, applied at the first
differing pair: both valid IPs compare numerically via `netip.Addr.Less`; a
valid IP is less than a non-IP; two non-IPs compare as plain strings. -/
def isLessTieBreak (e oe : GoString) : Bool :=
  match netip.ParseAddr e, netip.ParseAddr oe with
  | some ipA, some ipB => netip.Addr.Less ipA ipB
  | some _, none => true
  | none, some _ => false
  | none, none => decide (e < oe)

/-- The comparison loop of `Targets.IsLess`: walk the two (sorted) lists in
lockstep and decide at the first differing pair; false if none differs. -/
def isLessLoop : Targets → Targets → Bool
  | e :: t, oe :: o => if e = oe then isLessLoop t o else isLessTieBreak e oe
  | _, _ => false

/-- Model of `Targets.IsLess`: a shorter list is less, a longer one is not; lists of
equal length are sorted and compared pairwise. -/
def Targets.IsLess (t o : Targets) : Bool :=
  if t.length < o.length then true
  else if o.length < t.length then false
  else isLessLoop (sortTargets t) (sortTargets o)

/-- Contents of the two caller-owned slices after `Targets.Same(t, o)`
returns: the Go code calls `sort.Stable` on `t` and `o` themselves (no
copies), so both come back sorted whenever the length guard passes. -/
def sameArgsAfter (t o : Targets) : Targets × Targets :=
  if t.length ≠ o.length then (t, o) else (sortTargets t, sortTargets o)

/-- Contents of the two caller-owned slices after `Targets.IsLess(t, o)`
returns: `sort.Sort` mutates `t` and `o` in place in the equal-length case. -/
def isLessArgsAfter (t o : Targets) : Targets × Targets :=
  if t.length < o.length then (t, o)
  else if o.length < t.length then (t, o)
  else (sortTargets t, sortTargets o)

example : Targets.IsLess [gs "1.2.3.4"] [gs "1-2-3-4.example.com"] = true := by decide
example : Targets.IsLess [gs "10.0.0.1"] [gs "2.0.0.1"] = false := by decide
example : Targets.IsLess [gs "1.2.3.4"] [gs "1.2.3.5"] = true := by decide
example : Targets.Same [gs "b", gs "a"] [gs "A", gs "B"] = true := by decide
example : Targets.Same [gs "a", gs "B"] [gs "A", gs "b"] = false := by decide
example : netip.ParseAddr (gs "fe80::1%eth0") ≠ none := by decide
example : netip.ParseAddr (gs "::ffff:1.2.3.4") ≠ none := by decide
example : netip.ParseAddr (gs "1.2.3.04") = none := by decide
example : netip.ParseAddr (gs "1.2.3") = none := by decide

/-- Model of `endpoint.TTL`: a record TTL in seconds (Go `int64`; no arithmetic in
this package can overflow it, so `Int` is a faithful model). -/
abbrev TTL := Int

/-- Model of `endpoint.Labels` (defined in the labels component of the package): a
Go `map[string]string`, modelled as an association list with unique keys;
`lookup` models map access. -/
abbrev Labels := List (GoString × GoString)

/-- Modelled from the spec: `NewLabels` (from the labels component, which is
not under src/) initializes an empty Labels mapping. -/
def NewLabels : Labels := []

/-- Modelled from the spec: `OwnerLabelKey` (from the labels component, which
is not under src/) is the single well-known reserved label key denoting
record ownership.  Its exact string value is a cross-component contract that
the spec does not fix, and no claim depends on it; any fixed value is a
faithful model. -/
def OwnerLabelKey : GoString := gs "owner"

/-- Model of `endpoint.ProviderSpecificProperty`: a name/value configuration pair. -/
structure ProviderSpecificProperty where
  Name : GoString
  Value : GoString
deriving DecidableEq

/-- Model of `endpoint.ProviderSpecific`: the ordered provider-specific overlay. -/
abbrev ProviderSpecific := List ProviderSpecificProperty

/-- Model of `endpoint.EndpointKey`: the identity triple. -/
structure EndpointKey where
  DNSName : GoString
  RecordType : GoString
  SetIdentifier : GoString
deriving DecidableEq

/-- Model of `endpoint.Endpoint` with its fields in source order. -/
structure Endpoint where
  DNSName : GoString
  Targets : List GoString
  RecordType : GoString
  SetIdentifier : GoString
  RecordTTL : TTL
  Labels : List (GoString × GoString)
  ProviderSpecific : List ProviderSpecificProperty
deriving DecidableEq

/-- Go `strings.TrimSuffix(s, ".")`: drop one trailing dot if present.
(`HasSuffix(s, ".")` holds exactly when the last character is `'.'`.) -/
def trimDotSuffix (s : GoString) : GoString :=
  if s.getLast? = some '.' then s.dropLast else s

/-- Go `strings.Split(s, ".")`: the substrings between the dots; the empty
string splits to one empty field, like in Go. -/
def splitOnDot : GoString → List GoString
  | [] => [[]]
  | c :: rest =>
    if c = '.' then [] :: splitOnDot rest
    else
      match splitOnDot rest with
      | g :: gsend => (c :: g) :: gsend
      | [] => [[c]]

/-- Model of `endpoint.NewEndpointWithTTL`: trim a trailing dot from each target and
from the name; fail (return `nil`, modelled as `none`) if any dot-separated
label of `dnsName` is longer than 63 bytes; otherwise build the record with
empty labels, no set identifier and no provider-specific entries. -/
def NewEndpointWithTTL (dnsName recordType : GoString) (ttl : TTL)
    (targets : List GoString) : Option Endpoint :=
  let cleanTargets := targets.map trimDotSuffix
  if (splitOnDot dnsName).any (fun label => 63 < utf8Len label) then none
  else
    some { DNSName := trimDotSuffix dnsName
           Targets := cleanTargets
           RecordType := recordType
           SetIdentifier := []
           RecordTTL := ttl
           Labels := NewLabels
           ProviderSpecific := [] }

/-- Model of `endpoint.NewEndpoint`: `NewEndpointWithTTL` with TTL 0. -/
def NewEndpoint (dnsName recordType : GoString) (targets : List GoString) : Option Endpoint :=
  NewEndpointWithTTL dnsName recordType 0 targets

/-- The loop of `Endpoint.GetProviderSpecificProperty` over the overlay list:
return the value of the first entry whose name is `key`, with a found flag. -/
def getPSP : ProviderSpecific → GoString → GoString × Bool
  | [], _ => ([], false)
  | p :: rest, key => if p.Name = key then (p.Value, true) else getPSP rest key

/-- The loop of `Endpoint.SetProviderSpecificProperty`: replace the first
entry whose name is `key` in place (leaving every other entry untouched), or
append a new entry at the end when no name matches. -/
def setPSP : ProviderSpecific → GoString → GoString → ProviderSpecific
  | [], key, value => [{ Name := key, Value := value }]
  | p :: rest, key, value =>
    if p.Name = key then { Name := key, Value := value } :: rest
    else p :: setPSP rest key value

/-- The loop of `Endpoint.DeleteProviderSpecificProperty`: remove the first
entry whose name is `key`; a no-op when no name matches. -/
def delPSP : ProviderSpecific → GoString → ProviderSpecific
  | [], _ => []
  | p :: rest, key => if p.Name = key then rest else p :: delPSP rest key

/-- Model of `Endpoint.GetProviderSpecificProperty`: value of the first entry with the
given name, plus a found flag; `("", false)` when absent. -/
def Endpoint.GetProviderSpecificProperty (e : Endpoint) (key : GoString) : GoString × Bool :=
  getPSP e.ProviderSpecific key

/-- Model of `Endpoint.SetProviderSpecificProperty` (Go mutates the receiver; the
model returns the updated endpoint). -/
def Endpoint.SetProviderSpecificProperty (e : Endpoint) (key value : GoString) : Endpoint :=
  { e with ProviderSpecific := setPSP e.ProviderSpecific key value }

/-- Model of `Endpoint.DeleteProviderSpecificProperty` (Go mutates the receiver; the
model returns the updated endpoint). -/
def Endpoint.DeleteProviderSpecificProperty (e : Endpoint) (key : GoString) : Endpoint :=
  { e with ProviderSpecific := delPSP e.ProviderSpecific key }

/-- Model of `Endpoint.Key`: the identity triple of the endpoint. -/
def Endpoint.Key (e : Endpoint) : EndpointKey :=
  { DNSName := e.DNSName, RecordType := e.RecordType, SetIdentifier := e.SetIdentifier }


/-- The key composed inline inside `FilterEndpointsByOwnerID` (the filter
builds `EndpointKey{DNSName: ..., RecordType: ..., SetIdentifier: ...}` from
the fields itself instead of calling `Endpoint.Key`). -/
def filterKey (ep : Endpoint) : EndpointKey :=
  { DNSName := ep.DNSName, RecordType := ep.RecordType, SetIdentifier := ep.SetIdentifier }

/-- The loop of `FilterEndpointsByOwnerID`: `visited` is the set of identity
keys already seen (the Go `map[EndpointKey]bool`).  An endpoint whose key was
seen is skipped outright; otherwise it is kept exactly when its labels map
the ownership key to `ownerID`, and its key is marked as seen either way. -/
def filterByOwnerLoop (ownerID : GoString) : List Endpoint → List EndpointKey → List Endpoint
  | [], _ => []
  | ep :: eps, visited =>
    let key := filterKey ep
    if key ∈ visited then filterByOwnerLoop ownerID eps visited
    else
      match ep.Labels.lookup OwnerLabelKey with
      | some endpointOwner =>
        if endpointOwner ≠ ownerID then filterByOwnerLoop ownerID eps (key :: visited)
        else ep :: filterByOwnerLoop ownerID eps (key :: visited)
      | none => filterByOwnerLoop ownerID eps (key :: visited)

/-- Model of `endpoint.FilterEndpointsByOwnerID`. -/
def FilterEndpointsByOwnerID (ownerID : GoString) (eps : List Endpoint) : List Endpoint :=
  filterByOwnerLoop ownerID eps []

/-- The filter as the claim describes it: walk the input in order, keeping an
endpoint exactly when no previously processed endpoint (`prev`) has the same
identity triple and its labels contain the ownership key with value exactly
`ownerID`. -/
def firstOwnedAux (ownerID : GoString) : List Endpoint → List Endpoint → List Endpoint
  | _, [] => []
  | prev, ep :: eps =>
    if (∀ p ∈ prev, (EndpointKey.mk p.DNSName p.RecordType p.SetIdentifier ≠
          EndpointKey.mk ep.DNSName ep.RecordType ep.SetIdentifier)) ∧
        ep.Labels.lookup OwnerLabelKey = some ownerID then
      ep :: firstOwnedAux ownerID (prev ++ [ep]) eps
    else firstOwnedAux ownerID (prev ++ [ep]) eps

/-- Specification-side description of `FilterEndpointsByOwnerID` built from
the claim's words: the first occurrences (in input order) of each identity
key whose ownership label equals `ownerID`, in original relative order. -/
def firstOwnedOccurrences (ownerID : GoString) (eps : List Endpoint) : List Endpoint :=
  firstOwnedAux ownerID [] eps

lemma sortTargets_perm (t : Targets) : (sortTargets t).Perm t :=
  List.perm_insertionSort _ t

lemma sortTargets_length (t : Targets) : (sortTargets t).length = t.length :=
  (sortTargets_perm t).length_eq

lemma sortTargets_eq_of_perm {t o : Targets} (h : t.Perm o) : sortTargets t = sortTargets o :=
  List.eq_of_perm_of_sorted ((sortTargets_perm t).trans (h.trans (sortTargets_perm o).symm))
    (List.sorted_insertionSort _ t) (List.sorted_insertionSort _ o)

lemma EqualFold_self (a : GoString) : EqualFold a a = true := by
  simp [EqualFold]

lemma EqualFold_comm (a b : GoString) : EqualFold a b = EqualFold b a := by
  unfold EqualFold
  by_cases h : a.map Char.toLower = b.map Char.toLower
  · rw [h]
  · rw [beq_eq_false_iff_ne.mpr h, beq_eq_false_iff_ne.mpr (Ne.symm h)]

lemma sameLoop_self : ∀ l : Targets, sameLoop l l = true
  | [] => rfl
  | e :: t => by rw [sameLoop, EqualFold_self, sameLoop_self t, Bool.and_self]

lemma sameLoop_comm : ∀ l₁ l₂ : Targets, sameLoop l₁ l₂ = sameLoop l₂ l₁
  | [], [] => rfl
  | [], _ :: _ => rfl
  | _ :: _, [] => rfl
  | e :: t, oe :: o => by rw [sameLoop, sameLoop, EqualFold_comm, sameLoop_comm t o]

lemma isLessLoop_self : ∀ l : Targets, isLessLoop l l = false
  | [] => rfl
  | e :: t => by rw [isLessLoop, if_pos rfl, isLessLoop_self t]

lemma goStringList_eq_of_getD : ∀ (l₁ l₂ : Targets), l₁.length = l₂.length →
    (∀ j, l₁.getD j [] = l₂.getD j []) → l₁ = l₂
  | [], [], _, _ => rfl
  | [], _ :: _, hlen, _ => by simp at hlen
  | _ :: _, [], hlen, _ => by simp at hlen
  | a :: t, b :: o, hlen, h => by
    have h0 : a = b := by have := h 0; simpa using this
    have ht : t = o := goStringList_eq_of_getD t o (by simpa using hlen)
      (fun j => by have := h (j + 1); simpa using this)
    rw [h0, ht]

lemma isLessLoop_firstDiff : ∀ (l₁ l₂ : Targets) (i : Nat), l₁.length = l₂.length →
    i < l₁.length → (∀ j, j < i → l₁.getD j [] = l₂.getD j []) →
    l₁.getD i [] ≠ l₂.getD i [] →
    isLessLoop l₁ l₂ = isLessTieBreak (l₁.getD i []) (l₂.getD i [])
  | [], _, i, _, hi, _, _ => absurd hi (by simp)
  | _ :: _, [], _, hlen, _, _, _ => by simp at hlen
  | a :: t, b :: o, 0, _, _, _, hne => by
    simp only [List.getD_cons_zero] at hne ⊢
    rw [isLessLoop, if_neg hne]
  | a :: t, b :: o, i + 1, hlen, hi, hpre, hne => by
    have hab : a = b := by have := hpre 0 (Nat.succ_pos i); simpa using this
    simp only [List.getD_cons_succ] at hne ⊢
    rw [isLessLoop, if_pos hab]
    exact isLessLoop_firstDiff t o i (by simpa using hlen) (by simpa using hi)
      (fun j hj => by have := hpre (j + 1) (by omega); simpa using this) hne

/-- C1 (amended): `Targets.IsLess(t, o)` is true when `t` is shorter and
false when `t` is longer; at equal lengths, after sorting both lists the
result is decided at the first differing index by the tie-break rule (both
valid IPs: numeric address order; exactly one valid IP: the IP side is
lesser; neither: plain lexicographic string order), and is false when no
index differs.  `IsLess(["1.2.3.4"], ["1-2-3-4.example.com"])` is true; the
numeric IP order makes `IsLess(["2.0.0.1"], ["10.0.0.1"])` true (and, contrary
to the claim as stated, `IsLess(["10.0.0.1"], ["2.0.0.1"])` false). -/
theorem isLess_spec :
    (∀ t o : Targets, t.length < o.length → Targets.IsLess t o = true) ∧
    (∀ t o : Targets, o.length < t.length → Targets.IsLess t o = false) ∧
    (∀ a b : GoString,
      (∀ ipA ipB, netip.ParseAddr a = some ipA → netip.ParseAddr b = some ipB →
        isLessTieBreak a b = netip.Addr.Less ipA ipB) ∧
      (netip.ParseAddr a ≠ none → netip.ParseAddr b = none → isLessTieBreak a b = true) ∧
      (netip.ParseAddr a = none → netip.ParseAddr b ≠ none → isLessTieBreak a b = false) ∧
      (netip.ParseAddr a = none → netip.ParseAddr b = none →
        isLessTieBreak a b = decide (a < b))) ∧
    (∀ (t o : Targets) (i : Nat), t.length = o.length → i < t.length →
      (∀ j, j < i → (sortTargets t).getD j [] = (sortTargets o).getD j []) →
      (sortTargets t).getD i [] ≠ (sortTargets o).getD i [] →
      Targets.IsLess t o =
        isLessTieBreak ((sortTargets t).getD i []) ((sortTargets o).getD i [])) ∧
    (∀ t o : Targets, t.length = o.length →
      (∀ j, (sortTargets t).getD j [] = (sortTargets o).getD j []) →
      Targets.IsLess t o = false) ∧
    Targets.IsLess [gs "1.2.3.4"] [gs "1-2-3-4.example.com"] = true ∧
    Targets.IsLess [gs "2.0.0.1"] [gs "10.0.0.1"] = true := by
  refine ⟨?_, ?_, ?_, ?_, ?_, by decide, by decide⟩
  · intro t o h
    rw [Targets.IsLess, if_pos h]
  · intro t o h
    rw [Targets.IsLess, if_neg (by omega), if_pos h]
  · intro a b
    refine ⟨?_, ?_, ?_, ?_⟩ <;> unfold isLessTieBreak <;>
      cases ha : netip.ParseAddr a <;> cases hb : netip.ParseAddr b <;>
      simp_all
  · intro t o i hlen hi hpre hne
    rw [Targets.IsLess, if_neg (by omega), if_neg (by omega)]
    exact isLessLoop_firstDiff (sortTargets t) (sortTargets o) i
      (by rw [sortTargets_length, sortTargets_length, hlen])
      (by rw [sortTargets_length]; exact hi) hpre hne
  · intro t o hlen hall
    rw [Targets.IsLess, if_neg (by omega), if_neg (by omega),
      goStringList_eq_of_getD (sortTargets t) (sortTargets o)
        (by rw [sortTargets_length, sortTargets_length, hlen]) hall,
      isLessLoop_self]

/-- Witness for C1: the first-differing-index rule applied to the concrete
pair `(["b","10.0.0.5"], ["b","9.0.0.5"])`, whose sorted first elements are
the two IP addresses; the numeric comparison yields false. -/
theorem isLess_spec_witness :
    Targets.IsLess [gs "b", gs "10.0.0.5"] [gs "b", gs "9.0.0.5"] = false := by
  have h := isLess_spec.2.2.2.1 [gs "b", gs "10.0.0.5"] [gs "b", gs "9.0.0.5"] 0
    rfl (by decide) (fun j hj => absurd hj (by omega)) (by decide)
  exact h.trans (by decide)

/-- Counterexample to C1 as stated: the claim asserts
`IsLess(["10.0.0.1"], ["2.0.0.1"])` is true, but both strings parse as IPv4
addresses and `10.0.0.1` is numerically greater than `2.0.0.1`, so the code
returns false. -/
theorem isLess_claim_example_false :
    Targets.IsLess [gs "10.0.0.1"] [gs "2.0.0.1"] = false := by decide

/-- C2 (amended): `Targets.Same` returns false whenever the lengths differ,
is symmetric, and is true whenever `o` is exactly a permutation of `t`
(the case-insensitive pairwise comparison happens only after a
case-sensitive sort, so case-changed permutations are not covered in
general); `Same(["b","a"], ["A","B"])` is true and `Same(["a"], ["a","a"])`
is false. -/
theorem same_spec :
    (∀ t o : Targets, t.length ≠ o.length → Targets.Same t o = false) ∧
    (∀ t o : Targets, Targets.Same t o = Targets.Same o t) ∧
    (∀ t o : Targets, t.Perm o → Targets.Same t o = true) ∧
    Targets.Same [gs "b", gs "a"] [gs "A", gs "B"] = true ∧
    Targets.Same [gs "a"] [gs "a", gs "a"] = false := by
  have h1 : ∀ t o : Targets, t.length ≠ o.length → Targets.Same t o = false := by
    intro t o h
    rw [Targets.Same, if_pos h]
  refine ⟨h1, ?_, ?_, by decide, by decide⟩
  · intro t o
    by_cases h : t.length = o.length
    · rw [Targets.Same, Targets.Same, if_neg (by omega), if_neg (by omega), sameLoop_comm]
    · rw [h1 t o h, h1 o t (by omega)]
  · intro t o hperm
    rw [Targets.Same, if_neg (by have := hperm.length_eq; omega),
      sortTargets_eq_of_perm hperm, sameLoop_self]

/-- Witness for C2: the permutation rule applied to a concrete pair. -/
theorem same_spec_witness : Targets.Same [gs "x", gs "y"] [gs "y", gs "x"] = true :=
  same_spec.2.2.1 [gs "x", gs "y"] [gs "y", gs "x"] (by decide)

/-- Counterexample to C2 as stated: `["A","b"]` is a permutation of
`["a","B"]` up to per-element ASCII case (lower-casing both lists gives
permutations of each other), yet `Same(["a","B"], ["A","b"])` is false: the
case-sensitive sort pairs `"B"` with `"A"` and `"a"` with `"b"`. -/
theorem same_case_perm_counterexample :
    (List.map (List.map Char.toLower) [gs "a", gs "B"]).Perm
      (List.map (List.map Char.toLower) [gs "A", gs "b"]) ∧
    Targets.Same [gs "a", gs "B"] [gs "A", gs "b"] = false := by
  exact ⟨by decide, by decide⟩

/-- C9: comparing a target list with itself is consistent: `Same(t, t)` is
true and `IsLess(t, t)` is false, for every list `t`. -/
theorem same_refl_isLess_irrefl (t : Targets) :
    Targets.Same t t = true ∧ Targets.IsLess t t = false := by
  constructor
  · rw [Targets.Same, if_neg (by omega), sameLoop_self]
  · rw [Targets.IsLess, if_neg (by omega), if_neg (by omega), isLessLoop_self]

/-- C4 (code bug, evaluated): `Targets.Same` and `Targets.IsLess` sort the
caller's slices in place.  On the input `t = ["b","a"]`, `o = ["x","y"]`
both calls leave the first argument reordered to `["a","b"]`, so the
comparison is not free of side effects on its arguments. -/
theorem comparison_mutates_arguments :
    sameArgsAfter [gs "b", gs "a"] [gs "x", gs "y"] = ([gs "a", gs "b"], [gs "x", gs "y"]) ∧
    ([gs "a", gs "b"] : Targets) ≠ [gs "b", gs "a"] ∧
    isLessArgsAfter [gs "b", gs "a"] [gs "x", gs "y"] = ([gs "a", gs "b"], [gs "x", gs "y"]) :=
  ⟨by decide, by decide, by decide⟩

/-- C5: construction fails (returns `nil`) exactly when some dot-separated
label of `dnsName` is longer than 63 bytes, for `NewEndpointWithTTL` and
hence for `NewEndpoint`; otherwise a complete endpoint is returned. -/
theorem newEndpoint_none_iff (dnsName recordType : GoString) (ttl : TTL)
    (targets : List GoString) :
    (NewEndpointWithTTL dnsName recordType ttl targets = none ↔
      ∃ label ∈ splitOnDot dnsName, 63 < utf8Len label) ∧
    (NewEndpoint dnsName recordType targets = none ↔
      ∃ label ∈ splitOnDot dnsName, 63 < utf8Len label) := by
  have h : ∀ tt : TTL, NewEndpointWithTTL dnsName recordType tt targets = none ↔
      ∃ label ∈ splitOnDot dnsName, 63 < utf8Len label := by
    intro tt
    simp only [NewEndpointWithTTL]
    split
    · rename_i hc
      simpa using List.any_eq_true.mp hc
    · rename_i hc
      rw [List.any_eq_true] at hc
      simpa using hc
  exact ⟨h ttl, h 0⟩

lemma trimDotSuffix_append {s : GoString} (h : s.getLast? = some '.') :
    trimDotSuffix s ++ ['.'] = s := by
  have hne : s ≠ [] := by
    intro he
    rw [he] at h
    simp at h
  have hl : s.getLast hne = '.' := by
    rw [List.getLast?_eq_getLast s hne] at h
    exact Option.some.inj h
  rw [trimDotSuffix, if_pos h]
  calc s.dropLast ++ ['.'] = s.dropLast ++ [s.getLast hne] := by rw [hl]
    _ = s := List.dropLast_append_getLast hne

lemma trimDotSuffix_eq {s : GoString} (h : s.getLast? ≠ some '.') :
    trimDotSuffix s = s := by
  rw [trimDotSuffix, if_neg h]

/-- C6: on success, construction strips exactly one trailing dot from the
name (appending `'.'` back recovers the input; names without a trailing dot
are stored unchanged) and at most one trailing dot from each target, with
target order and count preserved. -/
theorem newEndpoint_trims_one_dot (dnsName recordType : GoString) (ttl : TTL)
    (targets : List GoString) (e : Endpoint)
    (h : NewEndpointWithTTL dnsName recordType ttl targets = some e) :
    (dnsName.getLast? = some '.' → e.DNSName ++ ['.'] = dnsName) ∧
    (dnsName.getLast? ≠ some '.' → e.DNSName = dnsName) ∧
    e.Targets = targets.map trimDotSuffix ∧
    (∀ s : GoString, s.getLast? = some '.' → trimDotSuffix s ++ ['.'] = s) ∧
    (∀ s : GoString, s.getLast? ≠ some '.' → trimDotSuffix s = s) ∧
    e.Targets.length = targets.length := by
  have hfields : e.DNSName = trimDotSuffix dnsName ∧ e.Targets = targets.map trimDotSuffix := by
    simp only [NewEndpointWithTTL] at h
    split at h
    · exact absurd h (by simp)
    · injection h with h2
      rw [← h2]
      exact ⟨rfl, rfl⟩
  refine ⟨?_, ?_, hfields.2, fun s hs => trimDotSuffix_append hs,
    fun s hs => trimDotSuffix_eq hs, by rw [hfields.2, List.length_map]⟩
  · intro hd
    rw [hfields.1]
    exact trimDotSuffix_append hd
  · intro hd
    rw [hfields.1]
    exact trimDotSuffix_eq hd

/-- Witness for C6: constructing `foo.example.com.` with target `1.2.3.4.`
stores `foo.example.com` (one dot stripped, recoverable by appending a dot)
and the trimmed target list. -/
theorem newEndpoint_trims_one_dot_witness :
    gs "foo.example.com" ++ ['.'] = gs "foo.example.com." ∧
    [gs "1.2.3.4"] = [gs "1.2.3.4."].map trimDotSuffix := by
  have h := newEndpoint_trims_one_dot (gs "foo.example.com.") (gs "A") 300 [gs "1.2.3.4."]
    (Endpoint.mk (gs "foo.example.com") [gs "1.2.3.4"] (gs "A") [] 300 [] []) (by decide)
  exact ⟨h.1 (by decide), h.2.2.1⟩

/-- The names occurring in an overlay, in order. -/
def psNames (ps : ProviderSpecific) : List GoString := ps.map ProviderSpecificProperty.Name

/-- One call against the overlay of an endpoint: a
`SetProviderSpecificProperty` or a `DeleteProviderSpecificProperty`. -/
inductive PSOp
  | set (name value : GoString)
  | del (name : GoString)

/-- Effect of one overlay call on the overlay list. -/
def PSOp.apply (ps : ProviderSpecific) : PSOp → ProviderSpecific
  | .set n v => setPSP ps n v
  | .del n => delPSP ps n

/-- Overlay resulting from a sequence of set/delete calls on an endpoint
that starts with an empty overlay. -/
def applyPSOps (ops : List PSOp) : ProviderSpecific := ops.foldl PSOp.apply []

lemma psNames_cons (p : ProviderSpecificProperty) (rest : ProviderSpecific) :
    psNames (p :: rest) = p.Name :: psNames rest := rfl

lemma psNames_setPSP (ps : ProviderSpecific) (k v : GoString) :
    psNames (setPSP ps k v) = if k ∈ psNames ps then psNames ps else psNames ps ++ [k] := by
  induction ps with
  | nil => simp [setPSP, psNames]
  | cons p rest ih =>
    rw [setPSP]
    by_cases h : p.Name = k
    · rw [if_pos h, if_pos (by rw [psNames_cons, List.mem_cons]; exact Or.inl h.symm)]
      rw [psNames_cons, psNames_cons]
      simp [h]
    · rw [if_neg h, psNames_cons, psNames_cons, ih]
      by_cases hk : k ∈ psNames rest
      · rw [if_pos hk, if_pos (List.mem_cons_of_mem _ hk)]
      · rw [if_neg hk, if_neg (fun hmem => by
          rcases List.mem_cons.mp hmem with he | he
          · exact h he.symm
          · exact hk he)]
        simp

lemma nodup_setPSP {ps : ProviderSpecific} (h : (psNames ps).Nodup) (k v : GoString) :
    (psNames (setPSP ps k v)).Nodup := by
  rw [psNames_setPSP]
  split
  · exact h
  · rename_i hk
    rw [List.nodup_append]
    refine ⟨h, List.nodup_singleton k, ?_⟩
    intro a ha hb
    rw [List.mem_singleton] at hb
    subst hb
    exact hk ha

lemma delPSP_sublist (ps : ProviderSpecific) (k : GoString) : (delPSP ps k).Sublist ps := by
  induction ps with
  | nil => simp [delPSP]
  | cons p rest ih =>
    rw [delPSP]
    split
    · exact List.sublist_cons_self p rest
    · exact ih.cons₂ p

lemma nodup_delPSP {ps : ProviderSpecific} (h : (psNames ps).Nodup) (k : GoString) :
    (psNames (delPSP ps k)).Nodup :=
  h.sublist ((delPSP_sublist ps k).map ProviderSpecificProperty.Name)

lemma nodup_applyPSOps_aux : ∀ (ops : List PSOp) (ps : ProviderSpecific),
    (psNames ps).Nodup → (psNames (ops.foldl PSOp.apply ps)).Nodup
  | [], _, h => h
  | op :: ops, ps, h => by
    rw [List.foldl_cons]
    refine nodup_applyPSOps_aux ops _ ?_
    cases op with
    | set n v => exact nodup_setPSP h n v
    | del n => exact nodup_delPSP h n

lemma setPSP_replace : ∀ (l₁ l₂ : ProviderSpecific) (k v v₀ : GoString), k ∉ psNames l₁ →
    setPSP (l₁ ++ { Name := k, Value := v₀ } :: l₂) k v = l₁ ++ { Name := k, Value := v } :: l₂
  | [], l₂, k, v, v₀, _ => by simp [setPSP]
  | p :: l₁, l₂, k, v, v₀, h => by
    rw [psNames_cons, List.mem_cons, not_or] at h
    simp only [List.cons_append, setPSP, if_neg (fun he : p.Name = k => h.1 he.symm),
      List.append_eq]
    rw [setPSP_replace l₁ l₂ k v v₀ h.2]

lemma setPSP_append : ∀ (ps : ProviderSpecific) (k v : GoString), k ∉ psNames ps →
    setPSP ps k v = ps ++ [{ Name := k, Value := v }]
  | [], _, _, _ => rfl
  | p :: rest, k, v, h => by
    rw [psNames_cons, List.mem_cons, not_or] at h
    rw [setPSP, if_neg (fun he : p.Name = k => h.1 he.symm), setPSP_append rest k v h.2,
      List.cons_append]

lemma delPSP_remove : ∀ (l₁ l₂ : ProviderSpecific) (k v₀ : GoString), k ∉ psNames l₁ →
    delPSP (l₁ ++ { Name := k, Value := v₀ } :: l₂) k = l₁ ++ l₂
  | [], l₂, k, v₀, _ => by simp [delPSP]
  | p :: l₁, l₂, k, v₀, h => by
    rw [psNames_cons, List.mem_cons, not_or] at h
    simp only [List.cons_append, delPSP, if_neg (fun he : p.Name = k => h.1 he.symm),
      List.append_eq]
    rw [delPSP_remove l₁ l₂ k v₀ h.2]

lemma delPSP_absent : ∀ (ps : ProviderSpecific) (k : GoString), k ∉ psNames ps →
    delPSP ps k = ps
  | [], _, _ => rfl
  | p :: rest, k, h => by
    rw [psNames_cons, List.mem_cons, not_or] at h
    rw [delPSP, if_neg (fun he : p.Name = k => h.1 he.symm), delPSP_absent rest k h.2]

/-- C7: the overlay keeps names unique and positions stable: any sequence of
set/delete calls from an empty overlay yields pairwise distinct names; `set`
of a present name replaces the entry in place, `set` of an absent name
appends, `delete` of a present name removes it preserving the order of the
rest, `delete` of an absent name is a no-op; and `Set("k","v1")` then
`Set("k","v2")` leaves exactly the single entry `("k","v2")`. -/
theorem providerSpecific_overlay_invariant :
    (∀ ops : List PSOp, (psNames (applyPSOps ops)).Nodup) ∧
    (∀ (l₁ l₂ : ProviderSpecific) (k v v₀ : GoString), k ∉ psNames l₁ →
      setPSP (l₁ ++ { Name := k, Value := v₀ } :: l₂) k v =
        l₁ ++ { Name := k, Value := v } :: l₂) ∧
    (∀ (ps : ProviderSpecific) (k v : GoString), k ∉ psNames ps →
      setPSP ps k v = ps ++ [{ Name := k, Value := v }]) ∧
    (∀ (l₁ l₂ : ProviderSpecific) (k v₀ : GoString), k ∉ psNames l₁ →
      delPSP (l₁ ++ { Name := k, Value := v₀ } :: l₂) k = l₁ ++ l₂) ∧
    (∀ (ps : ProviderSpecific) (k : GoString), k ∉ psNames ps → delPSP ps k = ps) ∧
    setPSP (setPSP [] (gs "k") (gs "v1")) (gs "k") (gs "v2") =
      [{ Name := gs "k", Value := gs "v2" }] :=
  ⟨fun ops => nodup_applyPSOps_aux ops [] List.nodup_nil, setPSP_replace, setPSP_append,
    delPSP_remove, delPSP_absent, by decide⟩

/-- Witness for C7: replacing the value of `"k"` in a two-entry overlay
keeps it at its position with the other entry untouched. -/
theorem providerSpecific_overlay_invariant_witness :
    setPSP [{ Name := gs "a", Value := gs "1" }, { Name := gs "k", Value := gs "v1" }]
      (gs "k") (gs "v2") =
      [{ Name := gs "a", Value := gs "1" }, { Name := gs "k", Value := gs "v2" }] := by
  have h := providerSpecific_overlay_invariant.2.1 [{ Name := gs "a", Value := gs "1" }] []
    (gs "k") (gs "v2") (gs "v1") (by decide)
  simpa using h

lemma getPSP_setPSP : ∀ (ps : ProviderSpecific) (k v : GoString),
    getPSP (setPSP ps k v) k = (v, true)
  | [], k, v => by simp [setPSP, getPSP]
  | p :: rest, k, v => by
    by_cases h : p.Name = k
    · rw [setPSP, if_pos h, getPSP, if_pos rfl]
    · rw [setPSP, if_neg h, getPSP, if_neg h, getPSP_setPSP rest k v]

lemma notMem_psNames_delPSP {ps : ProviderSpecific} (h : (psNames ps).Nodup) (k : GoString) :
    k ∉ psNames (delPSP ps k) := by
  induction ps with
  | nil => simp [delPSP, psNames]
  | cons p rest ih =>
    rw [psNames_cons] at h
    rw [delPSP]
    split
    · rename_i he
      intro hk
      exact (List.nodup_cons.mp h).1 (he ▸ hk)
    · rename_i he
      rw [psNames_cons, List.mem_cons, not_or]
      exact ⟨fun hk => he hk.symm, ih (List.nodup_cons.mp h).2⟩

lemma getPSP_notMem : ∀ {ps : ProviderSpecific} {k : GoString}, k ∉ psNames ps →
    getPSP ps k = ([], false)
  | [], _, _ => rfl
  | p :: rest, k, h => by
    rw [psNames_cons, List.mem_cons, not_or] at h
    rw [getPSP, if_neg (fun he : p.Name = k => h.1 he.symm)]
    exact getPSP_notMem h.2

/-- C10: overlay round trips on an endpoint: immediately after
`SetProviderSpecificProperty(k, v)`, `GetProviderSpecificProperty(k)`
returns `(v, true)`; and on an endpoint whose overlay names are unique,
immediately after `DeleteProviderSpecificProperty(k)` it returns
`("", false)`. -/
theorem providerSpecific_roundtrip :
    (∀ (e : Endpoint) (k v : GoString),
      (e.SetProviderSpecificProperty k v).GetProviderSpecificProperty k = (v, true)) ∧
    (∀ (e : Endpoint) (k : GoString), (psNames e.ProviderSpecific).Nodup →
      (e.DeleteProviderSpecificProperty k).GetProviderSpecificProperty k = ([], false)) := by
  constructor
  · intro e k v
    exact getPSP_setPSP e.ProviderSpecific k v
  · intro e k h
    exact getPSP_notMem (notMem_psNames_delPSP h k)

/-- Witness for C10: set-then-get and delete-then-get on a concrete
endpoint whose overlay holds one entry named `"k"`. -/
theorem providerSpecific_roundtrip_witness :
    ((Endpoint.mk (gs "a.com") [] (gs "A") [] 0 []
        [{ Name := gs "k", Value := gs "x" }]).SetProviderSpecificProperty
      (gs "k") (gs "v")).GetProviderSpecificProperty (gs "k") = (gs "v", true) ∧
    ((Endpoint.mk (gs "a.com") [] (gs "A") [] 0 []
        [{ Name := gs "k", Value := gs "x" }]).DeleteProviderSpecificProperty
      (gs "k")).GetProviderSpecificProperty (gs "k") = ([], false) :=
  ⟨providerSpecific_roundtrip.1 _ (gs "k") (gs "v"),
    providerSpecific_roundtrip.2 _ (gs "k") (by decide)⟩

lemma filterLoop_eq_firstOwnedAux (ownerID : GoString) : ∀ (eps : List Endpoint)
    (visited : List EndpointKey) (prev : List Endpoint),
    (∀ k, k ∈ visited ↔ ∃ p ∈ prev, filterKey p = k) →
    filterByOwnerLoop ownerID eps visited = firstOwnedAux ownerID prev eps
  | [], _, _, _ => rfl
  | ep :: eps, visited, prev, hinv => by
    by_cases hv : filterKey ep ∈ visited
    · have hinv2 : ∀ k, k ∈ visited ↔ ∃ p ∈ prev ++ [ep], filterKey p = k := by
        intro k
        constructor
        · intro hk
          obtain ⟨p, hp, he⟩ := (hinv k).mp hk
          exact ⟨p, List.mem_append_left _ hp, he⟩
        · rintro ⟨p, hp, he⟩
          rcases List.mem_append.mp hp with h1 | h1
          · exact (hinv k).mpr ⟨p, h1, he⟩
          · have hpe : p = ep := by simpa using h1
            subst hpe
            exact he ▸ hv
      have hcond : ¬ ((∀ p ∈ prev, EndpointKey.mk p.DNSName p.RecordType p.SetIdentifier ≠
            EndpointKey.mk ep.DNSName ep.RecordType ep.SetIdentifier) ∧
          ep.Labels.lookup OwnerLabelKey = some ownerID) := by
        rintro ⟨hall, -⟩
        obtain ⟨p, hp, he⟩ := (hinv _).mp hv
        exact hall p hp he
      simp only [filterByOwnerLoop, firstOwnedAux]
      rw [if_pos hv, if_neg hcond]
      exact filterLoop_eq_firstOwnedAux ownerID eps visited (prev ++ [ep]) hinv2
    · have hall : ∀ p ∈ prev, filterKey p ≠ filterKey ep := fun p hp he =>
        hv ((hinv _).mpr ⟨p, hp, he⟩)
      have hinv2 : ∀ k, k ∈ filterKey ep :: visited ↔ ∃ p ∈ prev ++ [ep], filterKey p = k := by
        intro k
        rw [List.mem_cons]
        constructor
        · rintro (rfl | hk)
          · exact ⟨ep, List.mem_append_right _ (by simp), rfl⟩
          · obtain ⟨p, hp, he⟩ := (hinv k).mp hk
            exact ⟨p, List.mem_append_left _ hp, he⟩
        · rintro ⟨p, hp, he⟩
          rcases List.mem_append.mp hp with h1 | h1
          · exact Or.inr ((hinv k).mpr ⟨p, h1, he⟩)
          · have hpe : p = ep := by simpa using h1
            subst hpe
            exact Or.inl he.symm
      have ih := filterLoop_eq_firstOwnedAux ownerID eps (filterKey ep :: visited)
        (prev ++ [ep]) hinv2
      simp only [filterByOwnerLoop, firstOwnedAux]
      rw [if_neg hv]
      split
      · rename_i owner hlook
        by_cases ho : owner = ownerID
        · subst ho
          rw [if_neg (fun hne => hne rfl), if_pos ⟨hall, hlook⟩, ih]
        · rw [if_pos ho, if_neg (fun hc => ho (Option.some.inj (hlook.symm.trans hc.2)))]
          exact ih
      · rename_i hlook
        rw [if_neg (fun hc => Option.noConfusion (hlook.symm.trans hc.2))]
        exact ih

/-- C3: `FilterEndpointsByOwnerID` returns exactly the endpoints that are the
first occurrence (in input order) of their identity key and whose labels map
the ownership key to exactly `ownerID`, in the original relative order; a
repeated key is dropped regardless of its own ownership, and an absent or
mismatched ownership label excludes the endpoint without error. -/
theorem filterEndpointsByOwnerID_spec (ownerID : GoString) (eps : List Endpoint) :
    FilterEndpointsByOwnerID ownerID eps = firstOwnedOccurrences ownerID eps :=
  filterLoop_eq_firstOwnedAux ownerID eps [] [] (by simp)

/-- C8: `Endpoint.Key` is the `(DNSName, RecordType, SetIdentifier)` triple,
independent of targets, TTL, labels and overlay, and the key composed inline
inside `FilterEndpointsByOwnerID` agrees with `Endpoint.Key` on every
endpoint. -/
theorem endpointKey_is_triple :
    (∀ e : Endpoint, e.Key = EndpointKey.mk e.DNSName e.RecordType e.SetIdentifier) ∧
    (∀ (d rt si : GoString) (ts₁ ts₂ : List GoString) (ttl₁ ttl₂ : TTL)
      (lb₁ lb₂ : List (GoString × GoString)) (ps₁ ps₂ : ProviderSpecific),
      (Endpoint.mk d ts₁ rt si ttl₁ lb₁ ps₁).Key = (Endpoint.mk d ts₂ rt si ttl₂ lb₂ ps₂).Key) ∧
    (∀ e : Endpoint, filterKey e = e.Key) :=
  ⟨fun _ => rfl, fun _ _ _ _ _ _ _ _ _ _ _ => rfl, fun _ => rfl⟩

example :
    FilterEndpointsByOwnerID (gs "x")
      [Endpoint.mk (gs "a.com") [gs "1.1.1.1"] (gs "A") [] 0 [(OwnerLabelKey, gs "x")] [],
        Endpoint.mk (gs "a.com") [gs "2.2.2.2"] (gs "A") [] 0 [(OwnerLabelKey, gs "x")] [],
        Endpoint.mk (gs "b.com") [gs "3.3.3.3"] (gs "A") [] 0 [(OwnerLabelKey, gs "y")] []] =
      [Endpoint.mk (gs "a.com") [gs "1.1.1.1"] (gs "A") [] 0 [(OwnerLabelKey, gs "x")] []] := by
  decide
